import Mathlib

/-!
Verification of the Markov-chain text generator `writer_bot.py` and its
custom linear-probing hash table.

The embedding is shallow and executable:
* the Python `Hashtable` becomes a structure holding the slot list and the
  declared size;
* the unguarded probe loop of `put` (which never terminates on a full table)
  and the bounded scan loop of `get` become fuel-indexed recursions; fuel
  equal to the capacity is always enough for `get` (proved below), while a
  `none` result of `probeAux` for every fuel models the probe loop of `put`
  running forever;
* fallible operations return `Option`: `none` models a Python run-time error
  (ZeroDivisionError when hashing with size 0, IndexError on a bad list
  index, the unterminating probe on a full table);
* Python's `table.get(key).append(word)` — in-place mutation of the value
  list aliased into the matched slot — becomes `Hashtable.appendAt`, which
  locates the slot with exactly the same scan as `get` and extends its value
  list;
* the global `randint` source is an injected function `pick : Nat → Nat → Nat`
  giving the value drawn at each step; `randint(0, k)` returns a value in
  `[0, k]`, which theorems assume as `pick s k ≤ k`.
-/

/-- The sentinel word `NONWORD = '@'` of writer_bot.py. -/
def NONWORD : String := "@"

/-- One occupied slot: a key and its (growable) value sequence. -/
abbrev Slot := String × List String

/-- The hash table of writer_bot.py: `_pairs` is the backing list whose cells
are empty (`none`) or hold a key/value-sequence pair, `size` is `_size`. -/
structure Hashtable where
  pairs : List (Option Slot)
  size : Nat
  deriving Repr, DecidableEq

/-- `Hashtable.__init__`: `self._pairs = [None] * size; self._size = size`. -/
def Hashtable.init (size : Nat) : Hashtable :=
  ⟨List.replicate size none, size⟩

/-- The accumulator loop of `Hashtable._hash`:
`p = 0; for c in key: p = 31 * p + ord(c)`. Python integers are unbounded,
so the accumulator is a `Nat`. -/
def hashRaw (key : String) : Nat :=
  key.data.foldl (fun p c => 31 * p + c.toNat) 0

/-- `Hashtable._hash`: `return p % self._size`.  `none` models the
ZeroDivisionError Python raises when `self._size` is `0`. -/
def hashFn (key : String) (size : Nat) : Option Nat :=
  if size = 0 then none else some (hashRaw key % size)

/-- One decrement-with-wrap step of `put`'s probe:
`i -= 1; if i < 0: i = len(self._pairs) - 1`. -/
def stepIdx (i size : Nat) : Nat :=
  if i = 0 then size - 1 else i - 1

/-- The probe loop of `Hashtable.put`: repeatedly `i -= 1`, wrapping from
`0` to `len(self._pairs) - 1` (here `size`, equal to the list length by
construction), until an empty slot is found.  The loop has no other exit, so
a table with no empty slot makes Python loop forever; this is modelled by
the fuel running out, and `probeAux … f = none` for every `f` (proved below
for full tables) says exactly that the loop never finds a slot. -/
def probeAux (pairs : List (Option Slot)) (size : Nat) : Nat → Nat → Option Nat
  | _, 0 => none
  | i, f + 1 =>
    match pairs.getD (stepIdx i size) none with
    | none => some (stepIdx i size)
    | some _ => probeAux pairs size (stepIdx i size) f

/-- `Hashtable.put`: hash the key; if the home slot is occupied, probe
downward for an empty slot; store `[key, [value]]` there.  `none` models a
run that raises (size 0) or never terminates (no empty slot). -/
def Hashtable.put (t : Hashtable) (key value : String) : Option Hashtable :=
  match hashFn key t.size with
  | none => none
  | some i =>
    match t.pairs.getD i none with
    | none => some ⟨t.pairs.set i (some (key, [value])), t.size⟩
    | some _ =>
      match probeAux t.pairs t.size i t.size with
      | none => none
      | some j => some ⟨t.pairs.set j (some (key, [value])), t.size⟩

/-- Outcome of the scan loop shared by `Hashtable.get` (and, through the
aliased in-place `append`, by the ingestion update): the matching slot was
found, the loop ended at an empty slot or wrapped back to `start`
(`missed`), or the fuel ran out (`fuelOut`, shown below to be unreachable
with fuel equal to the capacity). -/
inductive ScanOut where
  | found (j : Nat) (vs : List String)
  | missed
  | fuelOut
  deriving Repr, DecidableEq

/-- The loop of `Hashtable.get`: while the slot at `i` is occupied, return
its value list on a key match, else step to `(i - 1) % self._size` and stop
if that returns to `start`. -/
def scanAux (pairs : List (Option Slot)) (size : Nat) (key : String)
    (start : Nat) : Nat → Nat → ScanOut
  | _, 0 => ScanOut.fuelOut
  | i, f + 1 =>
    match pairs.getD i none with
    | none => ScanOut.missed
    | some (k, vs) =>
      if k = key then ScanOut.found i vs
      else
        let j := (i + (size - 1)) % size
        if j = start then ScanOut.missed
        else scanAux pairs size key start j f

/-- `Hashtable.get`: returns the value list of the matching slot, or `None`.
Fuel `t.size` is exact: the loop visits at most `capacity` slots. -/
def Hashtable.get (t : Hashtable) (key : String) : Option (List String) :=
  match hashFn key t.size with
  | none => none
  | some h =>
    match scanAux t.pairs t.size key h h t.size with
    | ScanOut.found _ vs => some vs
    | _ => none

/-- `Hashtable.__contains__`: `self.get(key) is None`. -/
def Hashtable.contains (t : Hashtable) (key : String) : Bool :=
  (t.get key).isSome

/-- `table.get(prefix_str).append(word)` of `build_prefix_suffix_table`:
Python mutates, through the alias returned by `get`, the value list stored
in the slot that `get`'s scan matched.  Here: run the same scan, extend that
slot's value list.  `none` models the AttributeError on a missing key (the
caller guards with `in table`) or the size-0 ZeroDivisionError. -/
def Hashtable.appendAt (t : Hashtable) (key value : String) : Option Hashtable :=
  match hashFn key t.size with
  | none => none
  | some h =>
    match scanAux t.pairs t.size key h h t.size with
    | ScanOut.found j vs => some ⟨t.pairs.set j (some (key, vs ++ [value])), t.size⟩
    | _ => none

/-- Loop body of `build_prefix_suffix_table`: for each word, join the
current window into the key, append to or insert into the table, then slide
the window (`prefix.pop(0)`, which raises IndexError on an empty window —
modelled by `none` — then `prefix.append(word)`). -/
def buildAux (t : Hashtable) : List String → List String → Option Hashtable
  | [], _ => some t
  | w :: ws, pfx =>
    let ps := String.intercalate " " pfx
    match (if t.contains ps then t.appendAt ps w else t.put ps w) with
    | none => none
    | some t2 =>
      match pfx with
      | [] => none
      | _ :: rest => buildAux t2 ws (rest ++ [w])

/-- `build_prefix_suffix_table(contents, n, table_size)`. -/
def build_prefix_suffix_table (contents : List String) (n : Nat)
    (table_size : Nat) : Option Hashtable :=
  buildAux (Hashtable.init table_size) contents (List.replicate n NONWORD)

/-- Loop body of `generate_text`: while the current key is in the table and
fewer than `word_count` words were produced (the fuel is the number of words
still to produce; each iteration produces exactly one), fetch the suffixes,
pick `suffixes[randint(0, len - 1)]` when there are several and
`suffixes[0]` otherwise, emit the word and slide the window.  `none` models
an IndexError (empty suffix list or an out-of-range random index) or the
IndexError of `prefix.pop(0)` on an empty window. -/
def genAux (t : Hashtable) (pick : Nat → Nat → Nat) :
    List String → List String → Nat → Nat → Option (List String)
  | _, tlist, _, 0 => some tlist
  | pfx, tlist, step, f + 1 =>
    let ps := String.intercalate " " pfx
    match t.get ps with
    | none => some tlist
    | some suffixes =>
      match (if suffixes.length > 1
             then suffixes.get? (pick step (suffixes.length - 1))
             else suffixes.get? 0) with
      | none => none
      | some w =>
        match pfx with
        | [] => none
        | _ :: rest => genAux t pick (rest ++ [w]) (tlist ++ [w]) (step + 1) f

/-- `generate_text(table, n, word_count)` with the random source made an
explicit argument: `pick step k` is the value `randint(0, k)` returns on the
`step`-th loop iteration. -/
def generate_text (t : Hashtable) (n word_count : Nat)
    (pick : Nat → Nat → Nat) : Option (List String) :=
  genAux t pick (List.replicate n NONWORD) [] 0 word_count

/-- Result of the input validation at the top of `main`. -/
inductive ConfigCheck where
  | ok
  | pfxSizeError
  | wordCountError
  deriving Repr, DecidableEq

set_option linter.unusedVariables false in
/-- The only validation `main` performs (lines 185–190): `prefix_size < 1`
and `word_count < 1` are rejected; `table_size` is never examined. -/
def mainValidation (tableSize pfxSize wordCount : Int) : ConfigCheck :=
  if pfxSize < 1 then ConfigCheck.pfxSizeError
  else if wordCount < 1 then ConfigCheck.wordCountError
  else ConfigCheck.ok

/-! ### Association-list model

`build_prefix_suffix_table` is proved to refine a plain association list in
insertion order; the concrete claims about ingestion and generation are then
settled against the computed model. -/

/-- Association-list model of the store. -/
abbrev Model := List (String × List String)

/-- Model lookup: first entry with the given key. -/
def modelFind : Model → String → Option (List String)
  | [], _ => none
  | (k, vs) :: rest, key => if k = key then some vs else modelFind rest key

/-- Model append: extend the value sequence of the (first) entry with the
given key. -/
def modelAppend : Model → String → String → Model
  | [], _, _ => []
  | (k, vs) :: rest, key, v =>
    if k = key then (k, vs ++ [v]) :: rest
    else (k, vs) :: modelAppend rest key v

/-- Model mirror of `buildAux`, same control flow. -/
def modelBuildAux : List String → Model → List String → Option Model
  | [], m, _ => some m
  | w :: ws, m, pfx =>
    let ps := String.intercalate " " pfx
    let m2 := if (modelFind m ps).isSome then modelAppend m ps w
              else m ++ [(ps, [w])]
    match pfx with
    | [] => none
    | _ :: rest => modelBuildAux ws m2 (rest ++ [w])

/-- Model mirror of `build_prefix_suffix_table`. -/
def modelBuild (contents : List String) (n : Nat) : Option Model :=
  modelBuildAux contents [] (List.replicate n NONWORD)

/-- `Modelled from the spec:` the hash function is described as "Horner's
rule with multiplier 31 and accumulator starting at 0", i.e. the polynomial
`Σ ord(cᵢ) · 31^(L-1-i)` over the key's characters; stated here as the
monomial sum so that agreement with the code's accumulator loop is a real
theorem. -/
def specHornerValue : List Char → Nat
  | [] => 0
  | c :: rest => c.toNat * 31 ^ rest.length + specHornerValue rest

/-- A well-formed occupied slot holds a non-empty value sequence. -/
def slotOk : Option Slot → Bool
  | none => true
  | some (_, vs) => !vs.isEmpty

/-- Sequential insertion of key/value pairs, for the round-trip property. -/
def insertList : Hashtable → List (String × String) → Option Hashtable
  | t, [] => some t
  | t, (k, v) :: rest =>
    match t.put k v with
    | none => none
    | some t2 => insertList t2 rest

/-! ### List and modular-arithmetic helpers -/

lemma getD_set_self {α : Type} (l : List α) (j : Nat) (x d : α)
    (h : j < l.length) : (l.set j x).getD j d = x := by
  simp [List.getD_eq_getElem?_getD, List.getElem?_set_self h]

lemma getD_set_ne {α : Type} (l : List α) (i j : Nat) (x d : α)
    (h : j ≠ i) : (l.set j x).getD i d = l.getD i d := by
  simp [List.getD_eq_getElem?_getD, List.getElem?_set_ne h]

lemma lt_length_of_getD_some {α : Type} {l : List (Option α)} {j : Nat}
    {s : α} (h : l.getD j none = some s) : j < l.length := by
  by_contra hc
  rw [List.getD_eq_getElem?_getD, List.getElem?_eq_none (Nat.le_of_not_lt hc)] at h
  simp at h

lemma getD_mem {α : Type} {l : List (Option α)} {j : Nat} {s : α}
    (h : l.getD j none = some s) : some s ∈ l := by
  have hj := lt_length_of_getD_some h
  rw [List.getD_eq_getElem?_getD, List.getElem?_eq_getElem hj] at h
  simp only [Option.getD_some] at h
  exact h ▸ List.getElem_mem hj

lemma getD_replicate_none {α : Type} (c j : Nat) :
    (List.replicate c (none : Option α)).getD j none = none := by
  rw [List.getD_eq_getElem?_getD, List.getElem?_replicate]
  split <;> rfl

/-- Number of occupied slots. -/
def occCount (pairs : List (Option Slot)) : Nat :=
  pairs.countP (fun s => s.isSome)

lemma occCount_set_some_of_none (l : List (Option Slot)) (j : Nat) (s : Slot)
    (hj : j < l.length) (h : l.getD j none = none) :
    occCount (l.set j (some s)) = occCount l + 1 := by
  have hgj : l[j] = none := by
    rw [List.getD_eq_getElem?_getD, List.getElem?_eq_getElem hj] at h
    simpa using h
  unfold occCount
  rw [List.countP_set _ _ _ _ hj, hgj]
  simp

lemma occCount_set_some_of_some (l : List (Option Slot)) (j : Nat)
    (s s0 : Slot) (h : l.getD j none = some s0) :
    occCount (l.set j (some s)) = occCount l := by
  have hj := lt_length_of_getD_some h
  have hgj : l[j] = some s0 := by
    rw [List.getD_eq_getElem?_getD, List.getElem?_eq_getElem hj] at h
    simpa using h
  have hpos : 0 < List.countP (fun s => s.isSome) l :=
    List.countP_pos_iff.mpr ⟨some s0, getD_mem h, by simp⟩
  unfold occCount
  rw [List.countP_set _ _ _ _ hj, hgj]
  simp only [Option.isSome_some, if_pos]
  omega

lemma exists_empty_of_occCount_lt :
    ∀ (l : List (Option Slot)), occCount l < l.length →
      ∃ j, j < l.length ∧ l.getD j none = none
  | [], h => absurd h (by simp [occCount])
  | none :: l, _ => ⟨0, by simp, rfl⟩
  | some s :: l, h => by
    have hc : occCount (some s :: l) = occCount l + 1 :=
      List.countP_cons_of_pos _ _ (by simp)
    have : occCount l < l.length := by
      simp only [List.length_cons] at h; omega
    obtain ⟨j, hj, hget⟩ := exists_empty_of_occCount_lt l this
    exact ⟨j + 1, by simpa using hj, hget⟩

lemma idx_step (j d size : Nat) (h : 0 < size) :
    ((j + (d + 1)) % size + (size - 1)) % size = (j + d) % size := by
  rw [Nat.mod_add_mod]
  have : j + (d + 1) + (size - 1) = j + d + size := by omega
  rw [this, Nat.add_mod_right]

lemma idx_cancel {j d e size : Nat} (hd : d < size) (he : e < size)
    (h : (j + d) % size = (j + e) % size) : d = e := by
  have hmod : d % size = e % size := Nat.ModEq.add_left_cancel' j h
  rwa [Nat.mod_eq_of_lt hd, Nat.mod_eq_of_lt he] at hmod

lemma idx_dist {h j size : Nat} (hh : h < size) (hj : j < size) :
    (j + (h + size - j) % size) % size = h := by
  rw [Nat.add_mod_mod]
  have : j + (h + size - j) = h + size := by omega
  rw [this, Nat.add_mod_right, Nat.mod_eq_of_lt hh]

lemma probe_step_eq (i size : Nat) (h0 : 0 < size) (hi : i < size) :
    (if i = 0 then size - 1 else i - 1) = (i + (size - 1)) % size := by
  by_cases hz : i = 0
  · subst hz
    simp [Nat.mod_eq_of_lt (show size - 1 < size by omega)]
  · have : i + (size - 1) = (i - 1) + size := by omega
    rw [if_neg hz, this, Nat.add_mod_right,
      Nat.mod_eq_of_lt (show i - 1 < size by omega)]

/-! ### Step equations for the fuel-indexed loops -/

lemma probeAux_succ_empty {pairs : List (Option Slot)} {size i f : Nat}
    (h : pairs.getD (stepIdx i size) none = none) :
    probeAux pairs size i (f + 1) = some (stepIdx i size) := by
  rw [probeAux, h]

lemma probeAux_succ_occ {pairs : List (Option Slot)} {size i f : Nat}
    {s : Slot} (h : pairs.getD (stepIdx i size) none = some s) :
    probeAux pairs size i (f + 1) = probeAux pairs size (stepIdx i size) f := by
  rw [probeAux, h]

lemma scanAux_succ_empty {pairs : List (Option Slot)} {size : Nat}
    {key : String} {start i f : Nat} (h : pairs.getD i none = none) :
    scanAux pairs size key start i (f + 1) = ScanOut.missed := by
  rw [scanAux, h]

lemma scanAux_succ_found {pairs : List (Option Slot)} {size : Nat}
    {key : String} {start i f : Nat} {vs : List String}
    (h : pairs.getD i none = some (key, vs)) :
    scanAux pairs size key start i (f + 1) = ScanOut.found i vs := by
  rw [scanAux, h]
  simp

lemma scanAux_succ_wrap {pairs : List (Option Slot)} {size : Nat}
    {key : String} {start i f : Nat} {k : String} {vs : List String}
    (h : pairs.getD i none = some (k, vs)) (hk : k ≠ key)
    (hw : (i + (size - 1)) % size = start) :
    scanAux pairs size key start i (f + 1) = ScanOut.missed := by
  rw [scanAux, h]
  simp only [if_neg hk, if_pos hw]

lemma scanAux_succ_next {pairs : List (Option Slot)} {size : Nat}
    {key : String} {start i f : Nat} {k : String} {vs : List String}
    (h : pairs.getD i none = some (k, vs)) (hk : k ≠ key)
    (hw : (i + (size - 1)) % size ≠ start) :
    scanAux pairs size key start i (f + 1) =
      scanAux pairs size key start ((i + (size - 1)) % size) f := by
  rw [scanAux, h]
  simp only [if_neg hk, if_neg hw]

/-! ### Probe-loop lemmas (`put`) -/

lemma stepIdx_eq (i size : Nat) (h0 : 0 < size) (hi : i < size) :
    stepIdx i size = (i + (size - 1)) % size := by
  unfold stepIdx
  exact probe_step_eq i size h0 hi

/-- A successful probe returns an empty slot, reached after `s ≥ 1` steps of
the decrement-and-wrap walk, with every slot strictly before it on the walk
occupied. -/
lemma probe_sound {pairs : List (Option Slot)} {size : Nat} :
    ∀ f i j, 0 < size → i < size → probeAux pairs size i f = some j →
      j < size ∧ pairs.getD j none = none ∧
        ∃ s, 0 < s ∧ s ≤ f ∧ i = (j + s) % size ∧
          ∀ e, 0 < e → e < s → pairs.getD ((j + e) % size) none ≠ none
  | 0, i, j, _, _, h => by simp [probeAux] at h
  | f + 1, i, j, h0, hi, h => by
    have hstep : (stepIdx i size + 1) % size = i := by
      rw [stepIdx_eq i size h0 hi, Nat.mod_add_mod]
      have : i + (size - 1) + 1 = i + size := by omega
      rw [this, Nat.add_mod_right, Nat.mod_eq_of_lt hi]
    have hj0lt : stepIdx i size < size := by
      rw [stepIdx_eq i size h0 hi]; exact Nat.mod_lt _ h0
    cases hcell : pairs.getD (stepIdx i size) none with
    | none =>
      rw [probeAux_succ_empty hcell] at h
      injection h with h
      subst h
      exact ⟨hj0lt, hcell, 1, Nat.one_pos, by omega, hstep.symm,
        fun e he1 he2 => absurd he2 (by omega)⟩
    | some s0 =>
      rw [probeAux_succ_occ hcell] at h
      obtain ⟨hjlt, hempty, s, hs0, hsf, hrel, hpath⟩ :=
        probe_sound f (stepIdx i size) j h0 hj0lt h
      refine ⟨hjlt, hempty, s + 1, Nat.succ_pos _, by omega, ?_, ?_⟩
      · have harr : j + (s + 1) = (j + s) + 1 := by omega
        rw [harr, ← Nat.mod_add_mod, ← hrel, hstep]
      · intro e he1 he2
        rcases Nat.lt_or_ge e s with hlt | hge
        · exact hpath e he1 hlt
        · have he : e = s := by omega
          rw [he, ← hrel, hcell]
          simp

/-- If some slot `m` is empty, the probe walk starting `d ≥ 1` steps above
`m` finds an empty slot within `d` units of fuel. -/
lemma probe_complete {pairs : List (Option Slot)} {size : Nat} :
    ∀ d f m, 0 < size → m < size → 0 < d → d ≤ f →
      pairs.getD m none = none →
      (probeAux pairs size ((m + d) % size) f).isSome
  | 0, _, _, _, _, hd, _, _ => absurd hd (by omega)
  | d + 1, 0, _, _, _, _, hdf, _ => absurd hdf (by omega)
  | d + 1, f + 1, m, h0, hm, _, hdf, hempty => by
    have hilt : (m + (d + 1)) % size < size := Nat.mod_lt _ h0
    have hj0 : stepIdx ((m + (d + 1)) % size) size = (m + d) % size := by
      rw [stepIdx_eq _ size h0 hilt, idx_step m d size h0]
    cases hcell : pairs.getD ((m + d) % size) none with
    | none =>
      rw [probeAux_succ_empty (by rw [hj0]; exact hcell)]
      simp
    | some s0 =>
      have hd0 : 0 < d := by
        rcases Nat.eq_zero_or_pos d with hz | hp
        · subst hz
          rw [Nat.add_zero, Nat.mod_eq_of_lt hm, hempty] at hcell
          cases hcell
        · exact hp
      rw [probeAux_succ_occ (by rw [hj0]; exact hcell), hj0]
      exact probe_complete d f m h0 hm hd0 (by omega) hempty

/-- With no empty slot anywhere, the probe loop finds nothing for any
amount of fuel: the Python loop never terminates. -/
lemma probe_none {pairs : List (Option Slot)} {size : Nat}
    (h0 : 0 < size) (hfull : ∀ j, j < size → pairs.getD j none ≠ none) :
    ∀ f i, i < size → probeAux pairs size i f = none
  | 0, i, _ => rfl
  | f + 1, i, hi => by
    have hj0lt : stepIdx i size < size := by
      rw [stepIdx_eq i size h0 hi]; exact Nat.mod_lt _ h0
    cases hcell : pairs.getD (stepIdx i size) none with
    | none => exact absurd hcell (hfull _ hj0lt)
    | some s0 =>
      rw [probeAux_succ_occ hcell]
      exact probe_none h0 hfull f _ hj0lt

/-! ### Scan-loop lemmas (`get`, `appendAt`) -/

/-- A `found` outcome really reads the matching slot. -/
lemma scan_sound {pairs : List (Option Slot)} {size : Nat} {key : String}
    {start : Nat} :
    ∀ f i j vs, scanAux pairs size key start i f = ScanOut.found j vs →
      pairs.getD j none = some (key, vs)
  | 0, i, j, vs, h => by simp [scanAux] at h
  | f + 1, i, j, vs, h => by
    cases hcell : pairs.getD i none with
    | none => rw [scanAux_succ_empty hcell] at h; cases h
    | some s0 =>
      obtain ⟨k, vs0⟩ := s0
      by_cases hk : k = key
      · subst hk
        rw [scanAux_succ_found hcell] at h
        cases h
        exact hcell
      · by_cases hst : (i + (size - 1)) % size = start
        · rw [scanAux_succ_wrap hcell hk hst] at h; cases h
        · rw [scanAux_succ_next hcell hk hst] at h
          exact scan_sound f _ j vs h

/-- If no slot holds the key, the scan never reports `found`. -/
lemma scan_not_found {pairs : List (Option Slot)} {size : Nat} {key : String}
    {start : Nat}
    (hno : ∀ idx k vs, pairs.getD idx none = some (k, vs) → k ≠ key) :
    ∀ f i j vs, scanAux pairs size key start i f ≠ ScanOut.found j vs
  | 0, i, j, vs => by simp [scanAux]
  | f + 1, i, j, vs => by
    cases hcell : pairs.getD i none with
    | none => rw [scanAux_succ_empty hcell]; simp
    | some s0 =>
      obtain ⟨k, vs0⟩ := s0
      have hk : k ≠ key := hno i k vs0 hcell
      by_cases hst : (i + (size - 1)) % size = start
      · rw [scanAux_succ_wrap hcell hk hst]; simp
      · rw [scanAux_succ_next hcell hk hst]
        exact scan_not_found hno f _ j vs

/-- Main find lemma: starting `d` decrement steps above the slot `j` that
holds the key, with every intervening slot occupied by a different key and
the walk not passing `start`, the scan returns `found j vs`. -/
lemma scan_finds {pairs : List (Option Slot)} {size : Nat} {key : String}
    {j : Nat} {vs : List String} {start : Nat} :
    ∀ d f, 0 < size → j < size →
      pairs.getD j none = some (key, vs) →
      (∀ e, 0 < e → e ≤ d → ∃ p, pairs.getD ((j + e) % size) none = some p ∧
        p.1 ≠ key) →
      (∀ e, e < d → (j + e) % size ≠ start) →
      d < f → d < size →
      scanAux pairs size key start ((j + d) % size) f = ScanOut.found j vs
  | 0, 0, _, _, _, _, _, hf, _ => absurd hf (by omega)
  | 0, f + 1, h0, hj, hcell, _, _, _, _ => by
    have hjj : (j + 0) % size = j := by rw [Nat.add_zero, Nat.mod_eq_of_lt hj]
    rw [hjj, scanAux_succ_found hcell]
  | d + 1, 0, _, _, _, _, _, hf, _ => absurd hf (by omega)
  | d + 1, f + 1, h0, hj, hcell, hpath, hstart, hf, hd => by
    obtain ⟨p, hp, hpk⟩ := hpath (d + 1) (by omega) (le_refl _)
    obtain ⟨k, vs0⟩ := p
    rw [scanAux_succ_next hp hpk
      (by rw [idx_step j d size h0]; exact hstart d (by omega)),
      idx_step j d size h0]
    exact scan_finds d f h0 hj hcell
      (fun e he1 he2 => hpath e he1 (by omega))
      (fun e he => hstart e (by omega)) (by omega) (by omega)

/-- Fuel equal to the capacity never runs out: starting `d` steps above the
point where the walk would wrap to `start`, `d + 1` units of fuel suffice. -/
lemma scan_no_fuelOut {pairs : List (Option Slot)} {size : Nat}
    {key : String} {start : Nat} :
    ∀ d f, 0 < size → start < size → d < size → d < f →
      scanAux pairs size key start ((start + 1 + d) % size) f ≠
        ScanOut.fuelOut
  | 0, 0, _, _, _, hf => absurd hf (by omega)
  | 0, f + 1, h0, hst, _, _ => by
    cases hcell : pairs.getD ((start + 1 + 0) % size) none with
    | none => rw [scanAux_succ_empty hcell]; simp
    | some s0 =>
      obtain ⟨k, vs0⟩ := s0
      by_cases hk : k = key
      · subst hk
        rw [scanAux_succ_found hcell]; simp
      · have hwrap : ((start + 1 + 0) % size + (size - 1)) % size = start := by
          have h1 := idx_step start 0 size h0
          simpa [Nat.mod_eq_of_lt hst] using h1
        rw [scanAux_succ_wrap hcell hk hwrap]; simp
  | d + 1, 0, _, _, _, hf => absurd hf (by omega)
  | d + 1, f + 1, h0, hst, hd, hf => by
    cases hcell : pairs.getD ((start + 1 + (d + 1)) % size) none with
    | none => rw [scanAux_succ_empty hcell]; simp
    | some s0 =>
      obtain ⟨k, vs0⟩ := s0
      by_cases hk : k = key
      · subst hk
        rw [scanAux_succ_found hcell]; simp
      · have hstep : ((start + 1 + (d + 1)) % size + (size - 1)) % size =
            (start + 1 + d) % size := idx_step (start + 1) d size h0
        by_cases hwrap : (start + 1 + d) % size = start
        · rw [scanAux_succ_wrap hcell hk (hstep.trans hwrap)]; simp
        · rw [scanAux_succ_next hcell hk
            (by rw [hstep]; exact hwrap), hstep]
          exact scan_no_fuelOut d f h0 hst (by omega) (by omega)

/-! ### Association-list model lemmas -/

lemma modelFind_isSome_of_mem {m : Model} {k : String} {vs : List String} :
    (k, vs) ∈ m → (modelFind m k).isSome
  | h => by
    induction m with
    | nil => cases h
    | cons e rest ih =>
      obtain ⟨k0, vs0⟩ := e
      rw [modelFind]
      by_cases hk : k0 = k
      · rw [if_pos hk]; rfl
      · rw [if_neg hk]
        rcases List.mem_cons.mp h with he | he
        · cases he; exact absurd rfl hk
        · exact ih he

lemma modelFind_mem {m : Model} {k : String} {vs : List String} :
    modelFind m k = some vs → (k, vs) ∈ m := by
  induction m with
  | nil => intro h; cases h
  | cons e rest ih =>
    obtain ⟨k0, vs0⟩ := e
    rw [modelFind]
    by_cases hk : k0 = k
    · rw [if_pos hk]
      intro h
      injection h with h
      exact List.mem_cons.mpr (Or.inl (by rw [hk, h]))
    · rw [if_neg hk]
      intro h
      exact List.mem_cons.mpr (Or.inr (ih h))

lemma not_mem_keys_of_modelFind_none {m : Model} {k : String}
    (h : modelFind m k = none) : k ∉ m.map Prod.fst := by
  induction m with
  | nil => simp
  | cons e rest ih =>
    obtain ⟨k0, vs0⟩ := e
    rw [modelFind] at h
    by_cases hk : k0 = k
    · rw [if_pos hk] at h; cases h
    · rw [if_neg hk] at h
      simp only [List.map_cons, List.mem_cons]
      rintro (he | he)
      · exact hk he.symm
      · exact ih h he

lemma modelAppend_map_fst (m : Model) (k v : String) :
    (modelAppend m k v).map Prod.fst = m.map Prod.fst := by
  induction m with
  | nil => rfl
  | cons e rest ih =>
    obtain ⟨k0, vs0⟩ := e
    rw [modelAppend]
    by_cases hk : k0 = k
    · rw [if_pos hk]; simp
    · rw [if_neg hk]; simpa using ih

lemma modelAppend_length (m : Model) (k v : String) :
    (modelAppend m k v).length = m.length := by
  have := modelAppend_map_fst m k v
  have h1 := congrArg List.length this
  simpa using h1

lemma mem_modelAppend_elim {m : Model} {k : String} {vs : List String}
    (hnd : (m.map Prod.fst).Nodup) (hmem : (k, vs) ∈ m) (v : String) :
    ∀ e ∈ modelAppend m k v, (e ∈ m ∧ e.1 ≠ k) ∨ e = (k, vs ++ [v]) := by
  induction m with
  | nil => cases hmem
  | cons e0 rest ih =>
    obtain ⟨k0, vs0⟩ := e0
    rw [modelAppend]
    simp only [List.map_cons, List.nodup_cons] at hnd
    by_cases hk : k0 = k
    · subst hk
      have hvs : vs0 = vs := by
        rcases List.mem_cons.mp hmem with he | he
        · cases he; rfl
        · exact absurd (List.mem_map.mpr ⟨(k0, vs), he, rfl⟩) hnd.1
      rw [if_pos rfl]
      intro e he
      rcases List.mem_cons.mp he with he1 | he1
      · right; rw [he1, hvs]
      · left
        refine ⟨List.mem_cons.mpr (Or.inr he1), fun hek => ?_⟩
        exact hnd.1 (List.mem_map.mpr ⟨e, he1, hek⟩)
    · rw [if_neg hk]
      have hmem0 : (k, vs) ∈ rest := by
        rcases List.mem_cons.mp hmem with he | he
        · cases he; exact absurd rfl hk
        · exact he
      intro e he
      rcases List.mem_cons.mp he with he1 | he1
      · left
        exact ⟨List.mem_cons.mpr (Or.inl he1), by rw [he1]; exact hk⟩
      · rcases ih hnd.2 hmem0 e he1 with ⟨h1, h2⟩ | h1
        · exact Or.inl ⟨List.mem_cons.mpr (Or.inr h1), h2⟩
        · exact Or.inr h1

lemma mem_modelAppend_self {m : Model} {k : String} {vs : List String}
    (hnd : (m.map Prod.fst).Nodup) (hmem : (k, vs) ∈ m) (v : String) :
    (k, vs ++ [v]) ∈ modelAppend m k v := by
  induction m with
  | nil => cases hmem
  | cons e0 rest ih =>
    obtain ⟨k0, vs0⟩ := e0
    rw [modelAppend]
    simp only [List.map_cons, List.nodup_cons] at hnd
    by_cases hk : k0 = k
    · subst hk
      have hvs : vs0 = vs := by
        rcases List.mem_cons.mp hmem with he | he
        · cases he; rfl
        · exact absurd (List.mem_map.mpr ⟨(k0, vs), he, rfl⟩) hnd.1
      rw [if_pos rfl, hvs]
      exact List.mem_cons.mpr (Or.inl rfl)
    · rw [if_neg hk]
      have hmem0 : (k, vs) ∈ rest := by
        rcases List.mem_cons.mp hmem with he | he
        · cases he; exact absurd rfl hk
        · exact he
      exact List.mem_cons.mpr (Or.inr (ih hnd.2 hmem0))

lemma mem_modelAppend_of_ne {m : Model} {k v : String} {e : String × List String}
    (hne : e.1 ≠ k) (hmem : e ∈ m) : e ∈ modelAppend m k v := by
  induction m with
  | nil => cases hmem
  | cons e0 rest ih =>
    obtain ⟨k0, vs0⟩ := e0
    rw [modelAppend]
    by_cases hk : k0 = k
    · rw [if_pos hk]
      rcases List.mem_cons.mp hmem with he | he
      · rw [he] at hne; exact absurd hk hne
      · exact List.mem_cons.mpr (Or.inr he)
    · rw [if_neg hk]
      rcases List.mem_cons.mp hmem with he | he
      · exact List.mem_cons.mpr (Or.inl he)
      · exact List.mem_cons.mpr (Or.inr (ih he))

/-! ### Unfolding the table operations at positive size -/

lemma get_unfold (t : Hashtable) (k : String) (h0 : 0 < t.size) :
    t.get k =
      match scanAux t.pairs t.size k (hashRaw k % t.size)
          (hashRaw k % t.size) t.size with
      | ScanOut.found _ vs => some vs
      | _ => none := by
  unfold Hashtable.get hashFn
  rw [if_neg (by omega)]

lemma appendAt_unfold (t : Hashtable) (k v : String) (h0 : 0 < t.size) :
    t.appendAt k v =
      match scanAux t.pairs t.size k (hashRaw k % t.size)
          (hashRaw k % t.size) t.size with
      | ScanOut.found j vs =>
          some ⟨t.pairs.set j (some (k, vs ++ [v])), t.size⟩
      | _ => none := by
  unfold Hashtable.appendAt hashFn
  rw [if_neg (by omega)]

lemma put_unfold (t : Hashtable) (k v : String) (h0 : 0 < t.size) :
    t.put k v =
      match t.pairs.getD (hashRaw k % t.size) none with
      | none =>
          some ⟨t.pairs.set (hashRaw k % t.size) (some (k, [v])), t.size⟩
      | some _ =>
        match probeAux t.pairs t.size (hashRaw k % t.size) t.size with
        | none => none
        | some j => some ⟨t.pairs.set j (some (k, [v])), t.size⟩ := by
  unfold Hashtable.put hashFn
  rw [if_neg (by omega)]

/-- Inverting `h = (j + s) % size` back to the canonical probe distance. -/
lemma dist_eq {j s size : Nat} (hj : j < size) (hs : s < size) :
    ((j + s) % size + size - j) % size = s := by
  rcases Nat.lt_or_ge (j + s) size with hlt | hge
  · rw [Nat.mod_eq_of_lt hlt]
    have : j + s + size - j = s + size := by omega
    rw [this, Nat.add_mod_right, Nat.mod_eq_of_lt hs]
  · have hsub : (j + s) % size = j + s - size := by
      rw [Nat.mod_eq_sub_mod hge, Nat.mod_eq_of_lt (by omega)]
    rw [hsub]
    have : j + s - size + size - j = s := by omega
    rw [this, Nat.mod_eq_of_lt hs]

/-! ### The refinement invariant -/

/-- The table `t` represents the association list `m`.  Besides the obvious
slot/entry correspondence this records the linear-probing invariant: every
occupied slot is reachable from its key's home index by walking the
decrement-and-wrap probe order through occupied slots only. -/
structure TableRel (t : Hashtable) (m : Model) : Prop where
  hsize : 0 < t.size
  hlen : t.pairs.length = t.size
  entries : ∀ e ∈ m, ∃ j, j < t.size ∧ t.pairs.getD j none = some e
  slots : ∀ j s, t.pairs.getD j none = some s → s ∈ m
  nodup : (m.map Prod.fst).Nodup
  distinct : ∀ j1 j2 k vs1 vs2, t.pairs.getD j1 none = some (k, vs1) →
    t.pairs.getD j2 none = some (k, vs2) → j1 = j2
  path : ∀ j k vs, t.pairs.getD j none = some (k, vs) →
    ∀ e, 0 < e → e ≤ (hashRaw k % t.size + t.size - j) % t.size →
      t.pairs.getD ((j + e) % t.size) none ≠ none
  count : occCount t.pairs = m.length

/-- The freshly initialised table represents the empty model. -/
lemma rel_init (c : Nat) (h0 : 0 < c) : TableRel (Hashtable.init c) [] := by
  refine ⟨h0, by simp [Hashtable.init], by simp, ?_, by simp, ?_, ?_, ?_⟩
  · intro j s h
    rw [Hashtable.init] at h
    simp only at h
    rw [getD_replicate_none] at h
    cases h
  · intro j1 j2 k vs1 vs2 h1 h2
    rw [Hashtable.init] at h1
    simp only at h1
    rw [getD_replicate_none] at h1
    cases h1
  · intro j k vs h
    rw [Hashtable.init] at h
    simp only at h
    rw [getD_replicate_none] at h
    cases h
  · rw [Hashtable.init]
    simp only [occCount, List.length_nil]
    rw [List.countP_eq_zero.mpr]
    intro s hs
    rw [List.eq_of_mem_replicate hs]
    simp

/-- In a related table, a model entry's slot is found by the `get` scan. -/
lemma rel_scan {t : Hashtable} {m : Model} (hrel : TableRel t m) {k : String}
    {vs : List String} (hmem : (k, vs) ∈ m) :
    ∃ j, j < t.size ∧ t.pairs.getD j none = some (k, vs) ∧
      scanAux t.pairs t.size k (hashRaw k % t.size) (hashRaw k % t.size)
        t.size = ScanOut.found j vs := by
  obtain ⟨j, hj, hcell⟩ := hrel.entries (k, vs) hmem
  refine ⟨j, hj, hcell, ?_⟩
  have h0 := hrel.hsize
  set h := hashRaw k % t.size with hh
  have hhlt : h < t.size := Nat.mod_lt _ h0
  set d := (h + t.size - j) % t.size with hd
  have hdlt : d < t.size := Nat.mod_lt _ h0
  have hjd : (j + d) % t.size = h := idx_dist hhlt hj
  have hne_j : ∀ e, 0 < e → e < t.size → (j + e) % t.size ≠ j := by
    intro e he hel hcontra
    have hj0 : (j + 0) % t.size = j := by
      rw [Nat.add_zero, Nat.mod_eq_of_lt hj]
    have := idx_cancel hel h0 (hcontra.trans hj0.symm)
    omega
  have hscan := @scan_finds t.pairs t.size k j vs h d t.size h0 hj hcell
    ?_ ?_ ?_ hdlt
  · rw [hjd] at hscan
    exact hscan
  · intro e he1 he2
    have hocc := hrel.path j k vs hcell e he1 (by rw [← hh, ← hd]; omega)
    cases hcell2 : t.pairs.getD ((j + e) % t.size) none with
    | none => exact absurd hcell2 hocc
    | some p =>
      refine ⟨p, rfl, fun hpk => ?_⟩
      obtain ⟨kp, vsp⟩ := p
      simp only at hpk
      subst hpk
      have := hrel.distinct _ _ _ _ _ hcell2 hcell
      exact hne_j e he1 (by omega) this
  · intro e he hcontra
    rw [← hjd] at hcontra
    have := idx_cancel (by omega) hdlt hcontra
    omega
  · omega

/-- `get` on a related table computes the model lookup. -/
lemma rel_get {t : Hashtable} {m : Model} (hrel : TableRel t m) (k : String) :
    t.get k = modelFind m k := by
  have h0 := hrel.hsize
  rw [get_unfold t k h0]
  cases hfind : modelFind m k with
  | some vs =>
    obtain ⟨j, hj, hcell, hscan⟩ := rel_scan hrel (modelFind_mem hfind)
    rw [hscan]
  | none =>
    have hno : ∀ idx k2 vs2, t.pairs.getD idx none = some (k2, vs2) →
        k2 ≠ k := by
      intro idx k2 vs2 hcell hkk
      subst hkk
      have hmem := hrel.slots idx _ hcell
      have := modelFind_isSome_of_mem hmem
      rw [hfind] at this
      cases this
    cases hscan : scanAux t.pairs t.size k (hashRaw k % t.size)
        (hashRaw k % t.size) t.size with
    | found j vs => exact absurd hscan (scan_not_found hno _ _ j vs)
    | missed => rfl
    | fuelOut => rfl

/-- Setting a slot to an occupied value preserves occupiedness of every
slot. -/
lemma set_some_occ_mono {pairs : List (Option Slot)} {i j : Nat} {x : Slot}
    (hj : j < pairs.length) (h : pairs.getD i none ≠ none) :
    (pairs.set j (some x)).getD i none ≠ none := by
  by_cases hij : j = i
  · subst hij
    rw [getD_set_self _ _ _ _ hj]
    simp
  · rw [getD_set_ne _ _ _ _ _ hij]
    exact h

/-- Writing a fresh key's pair into an empty slot whose probe path back to
the key's home index is fully occupied preserves the invariant, with the
entry appended to the model. -/
lemma rel_insert_slot {t : Hashtable} {m : Model} {k v : String} {j : Nat}
    (hrel : TableRel t m) (habs : modelFind m k = none) (hj : j < t.size)
    (hempty : t.pairs.getD j none = none)
    (hpath : ∀ e, 0 < e →
      e ≤ (hashRaw k % t.size + t.size - j) % t.size →
      t.pairs.getD ((j + e) % t.size) none ≠ none) :
    TableRel ⟨t.pairs.set j (some (k, [v])), t.size⟩ (m ++ [(k, [v])]) := by
  have h0 := hrel.hsize
  have hlen := hrel.hlen
  have hjl : j < t.pairs.length := by omega
  have hkeyfree : ∀ idx vs2, t.pairs.getD idx none ≠ some (k, vs2) := by
    intro idx vs2 hcell
    have hmem := hrel.slots idx _ hcell
    have := modelFind_isSome_of_mem hmem
    rw [habs] at this
    cases this
  refine ⟨h0, by simpa using hlen, ?_, ?_, ?_, ?_, ?_, ?_⟩
  · intro e he
    rcases List.mem_append.mp he with he1 | he1
    · obtain ⟨j2, hj2, hcell2⟩ := hrel.entries e he1
      have hne : j ≠ j2 := by
        intro hjj
        rw [hjj] at hempty
        rw [hempty] at hcell2
        cases hcell2
      exact ⟨j2, hj2, by rw [getD_set_ne _ _ _ _ _ hne]; exact hcell2⟩
    · rw [List.mem_singleton.mp he1]
      exact ⟨j, hj, by rw [getD_set_self _ _ _ _ hjl]⟩
  · intro j2 s hcell2
    by_cases hjj : j = j2
    · subst hjj
      rw [getD_set_self _ _ _ _ hjl] at hcell2
      injection hcell2 with hcell2
      exact List.mem_append.mpr (Or.inr (by rw [← hcell2]; simp))
    · rw [getD_set_ne _ _ _ _ _ hjj] at hcell2
      exact List.mem_append.mpr (Or.inl (hrel.slots j2 s hcell2))
  · rw [List.map_append]
    refine List.Nodup.append hrel.nodup (by simp) ?_
    intro a ha ha2
    simp only [List.map_cons, List.map_nil, List.mem_singleton] at ha2
    subst ha2
    exact absurd ha (not_mem_keys_of_modelFind_none habs)
  · intro j1 j2 k2 vs1 vs2 h1 h2
    by_cases hj1 : j = j1 <;> by_cases hj2 : j = j2
    · omega
    · subst hj1
      rw [getD_set_self _ _ _ _ hjl] at h1
      rw [getD_set_ne _ _ _ _ _ hj2] at h2
      injection h1 with h1
      have hk2 : k2 = k := by
        have := congrArg Prod.fst h1
        simpa using this.symm
      subst hk2
      exact absurd h2 (hkeyfree j2 vs2)
    · subst hj2
      rw [getD_set_self _ _ _ _ hjl] at h2
      rw [getD_set_ne _ _ _ _ _ hj1] at h1
      injection h2 with h2
      have hk2 : k2 = k := by
        have := congrArg Prod.fst h2
        simpa using this.symm
      subst hk2
      exact absurd h1 (hkeyfree j1 vs1)
    · rw [getD_set_ne _ _ _ _ _ hj1] at h1
      rw [getD_set_ne _ _ _ _ _ hj2] at h2
      exact hrel.distinct j1 j2 k2 vs1 vs2 h1 h2
  · intro j2 k2 vs2 hcell2 e he1 he2
    simp only at hcell2 he2 ⊢
    by_cases hjj : j = j2
    · subst hjj
      rw [getD_set_self _ _ _ _ hjl] at hcell2
      injection hcell2 with hcell2
      have hk2 : k2 = k := by
        have := congrArg Prod.fst hcell2
        simpa using this.symm
      subst hk2
      exact set_some_occ_mono hjl (hpath e he1 he2)
    · rw [getD_set_ne _ _ _ _ _ hjj] at hcell2
      exact set_some_occ_mono hjl (hrel.path j2 k2 vs2 hcell2 e he1 he2)
  · simp only
    rw [occCount_set_some_of_none _ _ _ hjl hempty, hrel.count]
    simp

/-- `put` of an absent key into a table with room succeeds and appends the
entry to the model. -/
lemma rel_put {t : Hashtable} {m : Model} (hrel : TableRel t m) (k v : String)
    (habs : modelFind m k = none) (hroom : m.length < t.size) :
    ∃ t2, t.put k v = some t2 ∧ t2.size = t.size ∧
      TableRel t2 (m ++ [(k, [v])]) := by
  have h0 := hrel.hsize
  have hlen := hrel.hlen
  rw [put_unfold t k v h0]
  set h := hashRaw k % t.size with hh
  have hhlt : h < t.size := Nat.mod_lt _ h0
  cases hcell : t.pairs.getD h none with
  | none =>
    refine ⟨_, rfl, rfl, ?_⟩
    have hd0 : (h + t.size - h) % t.size = 0 := by
      have : h + t.size - h = t.size := by omega
      rw [this, Nat.mod_self]
    exact rel_insert_slot hrel habs hhlt hcell
      (fun e he1 he2 => absurd he2 (by rw [← hh, hd0]; omega))
  | some s0 =>
    obtain ⟨m0, hm0, hm0empty⟩ :=
      exists_empty_of_occCount_lt t.pairs (by rw [hrel.count]; omega)
    have hm0lt : m0 < t.size := by omega
    set d := (h + t.size - m0) % t.size with hd
    have hdlt : d < t.size := Nat.mod_lt _ h0
    have hmd : (m0 + d) % t.size = h := idx_dist hhlt hm0lt
    have hdpos : 0 < d := by
      rcases Nat.eq_zero_or_pos d with hz | hp
      · exfalso
        rw [hz, Nat.add_zero, Nat.mod_eq_of_lt hm0lt] at hmd
        rw [hmd] at hm0empty
        rw [hm0empty] at hcell
        cases hcell
      · exact hp
    have hprobe := probe_complete d t.size m0 h0 hm0lt hdpos
      (by omega) hm0empty
    rw [hmd] at hprobe
    obtain ⟨j, hprobej⟩ := Option.isSome_iff_exists.mp hprobe
    rw [hprobej]
    obtain ⟨hjlt, hjempty, s, hs0, hsf, hrelidx, hpath⟩ :=
      probe_sound _ _ _ h0 hhlt hprobej
    have hslt : s < t.size := by
      rcases Nat.lt_or_ge s t.size with hlt | hge
      · exact hlt
      · exfalso
        have hss : s = t.size := by omega
        rw [hss] at hrelidx
        rw [Nat.add_mod_right, Nat.mod_eq_of_lt hjlt] at hrelidx
        rw [hrelidx] at hcell
        rw [hjempty] at hcell
        cases hcell
    have hdist : (h + t.size - j) % t.size = s := by
      rw [hrelidx]
      exact dist_eq hjlt hslt
    refine ⟨_, rfl, rfl, ?_⟩
    refine rel_insert_slot hrel habs hjlt hjempty ?_
    intro e he1 he2
    rw [← hh, hdist] at he2
    rcases Nat.lt_or_ge e s with hlt | hge
    · exact hpath e he1 hlt
    · have hes : e = s := by omega
      rw [hes, ← hrelidx, hcell]
      simp

/-- `appendAt` on a present key succeeds and performs the model append. -/
lemma rel_append {t : Hashtable} {m : Model} (hrel : TableRel t m)
    {k : String} {vs : List String} (hfind : modelFind m k = some vs)
    (v : String) :
    ∃ t2, t.appendAt k v = some t2 ∧ t2.size = t.size ∧
      TableRel t2 (modelAppend m k v) := by
  have h0 := hrel.hsize
  have hlen := hrel.hlen
  have hmem := modelFind_mem hfind
  obtain ⟨j, hj, hcell, hscan⟩ := rel_scan hrel hmem
  have hjl : j < t.pairs.length := by omega
  rw [appendAt_unfold t k v h0, hscan]
  refine ⟨_, rfl, rfl, ?_⟩
  have hmono : ∀ i, t.pairs.getD i none ≠ none →
      (t.pairs.set j (some (k, vs ++ [v]))).getD i none ≠ none :=
    fun i h => set_some_occ_mono hjl h
  refine ⟨h0, by simpa using hlen, ?_, ?_, ?_, ?_, ?_, ?_⟩
  · intro e he
    rcases mem_modelAppend_elim hrel.nodup hmem v e he with ⟨he1, he2⟩ | he1
    · obtain ⟨j2, hj2, hcell2⟩ := hrel.entries e he1
      have hne : j ≠ j2 := by
        intro hjj
        subst hjj
        rw [hcell] at hcell2
        injection hcell2 with hcell2
        exact he2 (by rw [← hcell2])
      exact ⟨j2, hj2, by rw [getD_set_ne _ _ _ _ _ hne]; exact hcell2⟩
    · subst he1
      exact ⟨j, hj, by rw [getD_set_self _ _ _ _ hjl]⟩
  · intro j2 s hcell2
    by_cases hjj : j = j2
    · subst hjj
      rw [getD_set_self _ _ _ _ hjl] at hcell2
      injection hcell2 with hcell2
      rw [← hcell2]
      exact mem_modelAppend_self hrel.nodup hmem v
    · rw [getD_set_ne _ _ _ _ _ hjj] at hcell2
      obtain ⟨k2, vs2⟩ := s
      have hk2 : k2 ≠ k := by
        intro hkk
        subst hkk
        exact hjj (hrel.distinct _ _ _ _ _ hcell hcell2)
      exact mem_modelAppend_of_ne hk2 (hrel.slots j2 _ hcell2)
  · rw [modelAppend_map_fst]
    exact hrel.nodup
  · intro j1 j2 k2 vs1 vs2 h1 h2
    have hkey : ∀ i k3 vs3,
        (t.pairs.set j (some (k, vs ++ [v]))).getD i none = some (k3, vs3) →
        ∃ vs4, t.pairs.getD i none = some (k3, vs4) := by
      intro i k3 vs3 hc
      by_cases hji : j = i
      · subst hji
        rw [getD_set_self _ _ _ _ hjl] at hc
        injection hc with hc
        have : k3 = k := by
          have := congrArg Prod.fst hc
          simpa using this.symm
        subst this
        exact ⟨vs, hcell⟩
      · rw [getD_set_ne _ _ _ _ _ hji] at hc
        exact ⟨vs3, hc⟩
    obtain ⟨vs1b, h1b⟩ := hkey j1 k2 vs1 h1
    obtain ⟨vs2b, h2b⟩ := hkey j2 k2 vs2 h2
    exact hrel.distinct j1 j2 k2 vs1b vs2b h1b h2b
  · intro j2 k2 vs2 hcell2 e he1 he2
    simp only at hcell2 he2 ⊢
    by_cases hjj : j = j2
    · rw [← hjj] at hcell2 he2 ⊢
      rw [getD_set_self _ _ _ _ hjl] at hcell2
      injection hcell2 with hcell2
      have hk2 : k2 = k := by
        have := congrArg Prod.fst hcell2
        simpa using this.symm
      rw [hk2] at he2
      exact hmono _ (hrel.path j k vs hcell e he1 he2)
    · rw [getD_set_ne _ _ _ _ _ hjj] at hcell2
      exact hmono _ (hrel.path j2 k2 vs2 hcell2 e he1 he2)
  · simp only
    rw [occCount_set_some_of_some _ _ _ (k, vs) hcell, hrel.count,
      modelAppend_length]

/-! ### Build refinement -/

lemma modelBuildAux_mono :
    ∀ (ws : List String) (m : Model) (pfx : List String) (mf : Model),
      modelBuildAux ws m pfx = some mf → m.length ≤ mf.length
  | [], m, pfx, mf, h => by
    rw [modelBuildAux] at h
    injection h with h
    rw [h]
  | w :: ws, m, pfx, mf, h => by
    cases pfx with
    | nil => rw [modelBuildAux] at h; cases h
    | cons p rest =>
      rw [modelBuildAux] at h
      have := modelBuildAux_mono ws _ (rest ++ [w]) mf h
      by_cases hf : (modelFind m (String.intercalate " " (p :: rest))).isSome
      · rw [if_pos hf] at this
        rw [modelAppend_length] at this
        exact this
      · rw [if_neg hf] at this
        simp only [List.length_append, List.length_singleton] at this
        omega

/-- The concrete build refines the model build, provided the final model
fits in the table. -/
lemma build_refines :
    ∀ (ws : List String) (t : Hashtable) (m : Model) (pfx : List String)
      (mf : Model), TableRel t m → modelBuildAux ws m pfx = some mf →
      mf.length ≤ t.size →
      ∃ tf, buildAux t ws pfx = some tf ∧ TableRel tf mf
  | [], t, m, pfx, mf, hrel, hmodel, hfit => by
    rw [modelBuildAux] at hmodel
    injection hmodel with hmodel
    subst hmodel
    exact ⟨t, rfl, hrel⟩
  | w :: ws, t, m, pfx, mf, hrel, hmodel, hfit => by
    cases pfx with
    | nil => rw [modelBuildAux] at hmodel; cases hmodel
    | cons p rest =>
      rw [modelBuildAux] at hmodel
      rw [buildAux]
      have hget := rel_get hrel (String.intercalate " " (p :: rest))
      rw [Hashtable.contains, hget]
      cases hfind : modelFind m (String.intercalate " " (p :: rest)) with
      | some vs =>
        rw [hfind] at hmodel
        simp only [Option.isSome_some, if_pos] at hmodel ⊢
        obtain ⟨t2, happ, hsz, hrel2⟩ := rel_append hrel hfind w
        rw [happ]
        exact build_refines ws t2 _ (rest ++ [w]) mf hrel2 hmodel
          (by omega)
      | none =>
        rw [hfind] at hmodel
        simp only [Option.isSome_none, Bool.false_eq_true, if_neg,
          if_false] at hmodel ⊢
        have hroom : m.length < t.size := by
          have := modelBuildAux_mono ws _ (rest ++ [w]) mf hmodel
          simp only [List.length_append, List.length_singleton] at this
          omega
        obtain ⟨t2, hput, hsz, hrel2⟩ := rel_put hrel _ w hfind hroom
        rw [hput]
        exact build_refines ws t2 _ (rest ++ [w]) mf hrel2 hmodel
          (by omega)

/-- Top-level build refinement: if the model build succeeds and its final
entry count fits the capacity, the concrete build succeeds and every lookup
agrees with the model. -/
lemma build_model (contents : List String) (n c : Nat) (mf : Model)
    (h0 : 0 < c) (hmodel : modelBuild contents n = some mf)
    (hfit : mf.length ≤ c) :
    ∃ t, build_prefix_suffix_table contents n c = some t ∧
      TableRel t mf ∧ ∀ k, t.get k = modelFind mf k := by
  obtain ⟨tf, hbuild, hrel⟩ := build_refines contents (Hashtable.init c) []
    (List.replicate n NONWORD) mf (rel_init c h0) hmodel
    (by rw [Hashtable.init]; exact hfit)
  exact ⟨tf, hbuild, hrel, fun k => rel_get hrel k⟩

/-! ### Hash accumulation -/

lemma foldl_horner (cs : List Char) : ∀ acc : Nat,
    cs.foldl (fun p c => 31 * p + c.toNat) acc =
      acc * 31 ^ cs.length + specHornerValue cs := by
  induction cs with
  | nil => intro acc; simp [specHornerValue]
  | cons c rest ih =>
    intro acc
    rw [List.foldl_cons, ih, specHornerValue, List.length_cons, pow_succ]
    ring

/-! ### More model-lookup lemmas -/

lemma modelFind_append_none {m1 : Model} {k : String}
    (h : modelFind m1 k = none) (m2 : Model) :
    modelFind (m1 ++ m2) k = modelFind m2 k := by
  induction m1 with
  | nil => rfl
  | cons e rest ih =>
    obtain ⟨k0, vs0⟩ := e
    rw [modelFind] at h
    by_cases hk : k0 = k
    · rw [if_pos hk] at h; cases h
    · rw [if_neg hk] at h
      rw [List.cons_append, modelFind, if_neg hk]
      exact ih h

lemma modelFind_map_self :
    ∀ (kvs : List (String × String)) (kv : String × String), kv ∈ kvs →
      (kvs.map Prod.fst).Nodup →
      modelFind (kvs.map fun p => (p.1, [p.2])) kv.1 = some [kv.2]
  | [], kv, h, _ => absurd h (by simp)
  | (k0, v0) :: rest, kv, h, hnd => by
    simp only [List.map_cons, List.nodup_cons] at hnd
    rw [List.map_cons, modelFind]
    rcases List.mem_cons.mp h with he | he
    · subst he
      rw [if_pos rfl]
    · have hk : k0 ≠ kv.1 := by
        intro hkk
        exact hnd.1 (hkk ▸ List.mem_map.mpr ⟨kv, he, rfl⟩)
      rw [if_neg hk]
      exact modelFind_map_self rest kv he hnd.2

/-! ### Generation step equations -/

lemma genAux_zero (t : Hashtable) (pick : Nat → Nat → Nat)
    (pfx tlist : List String) (step : Nat) :
    genAux t pick pfx tlist step 0 = some tlist := by
  rw [genAux]

lemma genAux_step (t : Hashtable) (pick : Nat → Nat → Nat) (p : String)
    (rest tlist : List String) (step f : Nat) (suffixes : List String)
    (w : String)
    (hget : t.get (String.intercalate " " (p :: rest)) = some suffixes)
    (hpickw : (if suffixes.length > 1
               then suffixes.get? (pick step (suffixes.length - 1))
               else suffixes.get? 0) = some w) :
    genAux t pick (p :: rest) tlist step (f + 1) =
      genAux t pick (rest ++ [w]) (tlist ++ [w]) (step + 1) f := by
  rw [genAux, hget]
  dsimp only
  rw [hpickw]

lemma genAux_dead_end (t : Hashtable) (pick : Nat → Nat → Nat) (p : String)
    (rest tlist : List String) (step f : Nat)
    (hget : t.get (String.intercalate " " (p :: rest)) = none) :
    genAux t pick (p :: rest) tlist step (f + 1) = some tlist := by
  rw [genAux, hget]

/-! ### The non-empty-value-sequence invariant -/

lemma slotOk_set {l : List (Option Slot)} {j : Nat} {k : String}
    {vs : List String} (hok : ∀ s ∈ l, slotOk s) (hvs : vs ≠ []) :
    ∀ s ∈ l.set j (some (k, vs)), slotOk s := by
  intro s hs
  rcases List.mem_or_eq_of_mem_set hs with h | h
  · exact hok s h
  · rw [h]
    simpa [slotOk] using hvs

lemma slotOk_put {t t2 : Hashtable} {k v : String}
    (hok : ∀ s ∈ t.pairs, slotOk s) (h : t.put k v = some t2) :
    ∀ s ∈ t2.pairs, slotOk s := by
  unfold Hashtable.put at h
  cases hfn : hashFn k t.size with
  | none => rw [hfn] at h; cases h
  | some i =>
    rw [hfn] at h
    dsimp only at h
    cases hcell : t.pairs.getD i none with
    | none =>
      rw [hcell] at h
      injection h with h
      subst h
      exact slotOk_set hok (by simp)
    | some s0 =>
      rw [hcell] at h
      cases hprobe : probeAux t.pairs t.size i t.size with
      | none => rw [hprobe] at h; cases h
      | some j =>
        rw [hprobe] at h
        injection h with h
        subst h
        exact slotOk_set hok (by simp)

lemma slotOk_appendAt {t t2 : Hashtable} {k v : String}
    (hok : ∀ s ∈ t.pairs, slotOk s) (h : t.appendAt k v = some t2) :
    ∀ s ∈ t2.pairs, slotOk s := by
  unfold Hashtable.appendAt at h
  cases hfn : hashFn k t.size with
  | none => rw [hfn] at h; cases h
  | some i =>
    rw [hfn] at h
    dsimp only at h
    cases hscan : scanAux t.pairs t.size k i i t.size with
    | found j vs =>
      rw [hscan] at h
      injection h with h
      subst h
      exact slotOk_set hok (by simp)
    | missed => rw [hscan] at h; cases h
    | fuelOut => rw [hscan] at h; cases h

lemma slotOk_get {t : Hashtable} {k : String} {vs : List String}
    (hok : ∀ s ∈ t.pairs, slotOk s) (h : t.get k = some vs) : vs ≠ [] := by
  unfold Hashtable.get at h
  cases hfn : hashFn k t.size with
  | none => rw [hfn] at h; cases h
  | some i =>
    rw [hfn] at h
    dsimp only at h
    cases hscan : scanAux t.pairs t.size k i i t.size with
    | found j vs2 =>
      rw [hscan] at h
      injection h with h
      subst h
      have hmem := getD_mem (scan_sound _ _ _ _ hscan)
      have := hok _ hmem
      simpa [slotOk] using this
    | missed => rw [hscan] at h; cases h
    | fuelOut => rw [hscan] at h; cases h

lemma get_mem_slot {t : Hashtable} {k : String} {vs : List String}
    (h : t.get k = some vs) : some (k, vs) ∈ t.pairs := by
  unfold Hashtable.get at h
  cases hfn : hashFn k t.size with
  | none => rw [hfn] at h; cases h
  | some i =>
    rw [hfn] at h
    dsimp only at h
    cases hscan : scanAux t.pairs t.size k i i t.size with
    | found j vs2 =>
      rw [hscan] at h
      injection h with h
      subst h
      exact getD_mem (scan_sound _ _ _ _ hscan)
    | missed => rw [hscan] at h; cases h
    | fuelOut => rw [hscan] at h; cases h

lemma init_slotOk (c : Nat) : ∀ s ∈ (Hashtable.init c).pairs, slotOk s := by
  intro s hs
  rw [Hashtable.init] at hs
  simp only at hs
  rw [List.eq_of_mem_replicate hs]
  rfl

lemma buildAux_slotOk :
    ∀ (ws pfx : List String) (t tf : Hashtable),
      (∀ s ∈ t.pairs, slotOk s) → buildAux t ws pfx = some tf →
      ∀ s ∈ tf.pairs, slotOk s
  | [], pfx, t, tf, hok, h => by
    rw [buildAux] at h
    injection h with h
    subst h
    exact hok
  | w :: ws, pfx, t, tf, hok, h => by
    cases pfx with
    | nil =>
      rw [buildAux] at h
      cases hop : (if t.contains (String.intercalate " " ([] : List String))
          then t.appendAt (String.intercalate " " ([] : List String)) w
          else t.put (String.intercalate " " ([] : List String)) w) with
      | none => rw [hop] at h; cases h
      | some t2 => rw [hop] at h; cases h
    | cons p rest =>
      rw [buildAux] at h
      cases hop : (if t.contains (String.intercalate " " (p :: rest))
          then t.appendAt (String.intercalate " " (p :: rest)) w
          else t.put (String.intercalate " " (p :: rest)) w) with
      | none => rw [hop] at h; cases h
      | some t2 =>
        rw [hop] at h
        have hok2 : ∀ s ∈ t2.pairs, slotOk s := by
          by_cases hc : t.contains (String.intercalate " " (p :: rest))
          · rw [if_pos hc] at hop
            exact slotOk_appendAt hok hop
          · rw [if_neg hc] at hop
            exact slotOk_put hok hop
        exact buildAux_slotOk ws (rest ++ [w]) t2 tf hok2 h

/-- Generation with in-range random draws over a table whose occupied slots
all carry non-empty value sequences never fails an index access. -/
lemma genAux_safe {t : Hashtable} (hok : ∀ s ∈ t.pairs, slotOk s)
    (pick : Nat → Nat → Nat) (hpick : ∀ s b, pick s b ≤ b) :
    ∀ (f : Nat) (pfx tlist : List String) (step : Nat), pfx ≠ [] →
      ∃ l, genAux t pick pfx tlist step f = some l
  | 0, pfx, tlist, step, _ => ⟨tlist, genAux_zero t pick pfx tlist step⟩
  | f + 1, pfx, tlist, step, hpfx => by
    obtain ⟨p, rest, hpr⟩ : ∃ p rest, pfx = p :: rest := by
      cases pfx with
      | nil => exact absurd rfl hpfx
      | cons a b => exact ⟨a, b, rfl⟩
    subst hpr
    cases hget : t.get (String.intercalate " " (p :: rest)) with
    | none => exact ⟨tlist, genAux_dead_end t pick p rest tlist step f hget⟩
    | some suffixes =>
      have hsne : suffixes ≠ [] := slotOk_get hok hget
      have hw : ∃ w, (if suffixes.length > 1
          then suffixes.get? (pick step (suffixes.length - 1))
          else suffixes.get? 0) = some w := by
        by_cases hlen1 : suffixes.length > 1
        · rw [if_pos hlen1]
          have hlt : pick step (suffixes.length - 1) < suffixes.length := by
            have := hpick step (suffixes.length - 1)
            omega
          rw [List.get?_eq_get hlt]
          exact ⟨_, rfl⟩
        · rw [if_neg hlen1]
          have hpos : 0 < suffixes.length := List.length_pos.mpr hsne
          rw [List.get?_eq_get hpos]
          exact ⟨_, rfl⟩
      obtain ⟨w, hw⟩ := hw
      rw [genAux_step t pick p rest tlist step f suffixes w hget hw]
      exact genAux_safe hok pick hpick f (rest ++ [w]) (tlist ++ [w])
        (step + 1) (by simp)

/-! ### Sequential insertion of distinct keys -/

lemma insertList_rel :
    ∀ (kvs : List (String × String)) (t : Hashtable) (m : Model),
      TableRel t m → (kvs.map Prod.fst).Nodup →
      (∀ kv ∈ kvs, modelFind m kv.1 = none) →
      m.length + kvs.length ≤ t.size →
      ∃ tf, insertList t kvs = some tf ∧
        TableRel tf (m ++ kvs.map (fun kv => (kv.1, [kv.2])))
  | [], t, m, hrel, _, _, _ => ⟨t, rfl, by simpa using hrel⟩
  | (k, v) :: rest, t, m, hrel, hnd, hdisj, hfit => by
    rw [insertList]
    simp only [List.length_cons] at hfit
    obtain ⟨t2, hput, hsz, hrel2⟩ := rel_put hrel k v
      (hdisj (k, v) (List.mem_cons_self _ _)) (by omega)
    rw [hput]
    simp only [List.map_cons, List.nodup_cons] at hnd
    have hdisj2 : ∀ kv ∈ rest, modelFind (m ++ [(k, [v])]) kv.1 = none := by
      intro kv hkv
      rw [modelFind_append_none (hdisj kv (List.mem_cons_of_mem _ hkv)),
        modelFind]
      rw [if_neg]
      · rfl
      · intro hkk
        exact hnd.1 (hkk ▸ List.mem_map.mpr ⟨kv, hkv, rfl⟩)
    obtain ⟨tf, hins, hrelf⟩ := insertList_rel rest t2 (m ++ [(k, [v])])
      hrel2 hnd.2 hdisj2
      (by rw [hsz]
          simp only [List.length_append, List.length_singleton]
          omega)
    refine ⟨tf, hins, ?_⟩
    rw [List.append_assoc] at hrelf
    exact hrelf

/-! ### Claim theorems -/

/-- C1: the claim says an insert into a store with no empty slot raises
CapacityExhaustedError instead of hanging.  The code has no such guard: on a
full capacity-1 table, the probe loop of `put` finds no empty slot for any
amount of fuel — the Python loop runs forever — so `put` has no terminating
error result.  (The spec itself flags the source's unguarded probe as the
hazard the rewrite must close, so this is recorded as a code bug.) -/
theorem capacity_exhaustion_loops_forever :
    ∃ t1, (Hashtable.init 1).put "a" "x" = some t1 ∧
      (∀ f, probeAux t1.pairs t1.size (hashRaw "b" % t1.size) f = none) ∧
      t1.put "b" "y" = none := by
  refine ⟨⟨[some ("a", ["x"])], 1⟩, by decide, ?_, by decide⟩
  intro f
  exact probe_none (by decide)
    (fun j hj => by
      have hj1 : j < 1 := hj
      have hz : j = 0 := by omega
      subst hz
      decide) f _ (by decide)

/-- C3: the claim says capacity ≤ 0 is rejected as a configuration error
before any ingestion begins.  `main` validates only the prefix size and the
word count: capacity 0 (and any negative capacity) passes validation, and
ingestion then begins and dies with a ZeroDivisionError at the first hash
(`none` in the embedding) instead of a pre-ingestion rejection. -/
theorem capacity_not_validated :
    mainValidation 0 2 2 = ConfigCheck.ok ∧
    mainValidation (-5) 2 2 = ConfigCheck.ok ∧
    build_prefix_suffix_table ["a"] 2 0 = none := by
  exact ⟨by decide, by decide, by decide⟩

/-- C6: `hash(key)` is the Horner-rule polynomial
`Σ ord(cᵢ) · 31^(L-1-i)` over the key's characters, taken modulo the
capacity (when the capacity is non-zero; at capacity 0 Python raises).
Determinism is immediate: `hashFn` is a pure function of its arguments. -/
theorem hash_is_horner (key : String) (c : Nat) (hc : c ≠ 0) :
    hashFn key c = some (specHornerValue key.data % c) := by
  rw [hashFn, if_neg hc, hashRaw, foldl_horner key.data 0]
  simp

/-- Witness for `hash_is_horner` at a concrete key and capacity. -/
theorem hash_is_horner_witness :
    hashFn "ab" 7 = some (specHornerValue "ab".data % 7) :=
  hash_is_horner "ab" 7 (by decide)

/-- C7: for every store state and key, the lookup scan never exhausts fuel
equal to the capacity (terminates within `capacity` probes); a `found`
outcome reads the matching occupied slot and makes `get` return its value
sequence; a `missed` outcome (empty slot reached or probe index back at its
start) makes `get` return absent. -/
theorem lookup_terminates_within_capacity (t : Hashtable) (key : String)
    (h0 : 0 < t.size) :
    scanAux t.pairs t.size key (hashRaw key % t.size) (hashRaw key % t.size)
        t.size ≠ ScanOut.fuelOut ∧
    (∀ j vs, scanAux t.pairs t.size key (hashRaw key % t.size)
        (hashRaw key % t.size) t.size = ScanOut.found j vs →
      t.pairs.getD j none = some (key, vs) ∧ t.get key = some vs) ∧
    (scanAux t.pairs t.size key (hashRaw key % t.size)
        (hashRaw key % t.size) t.size = ScanOut.missed →
      t.get key = none) := by
  have hhlt : hashRaw key % t.size < t.size := Nat.mod_lt _ h0
  refine ⟨?_, ?_, ?_⟩
  · have hidx : (hashRaw key % t.size + 1 + (t.size - 1)) % t.size =
        hashRaw key % t.size := by
      have harith : hashRaw key % t.size + 1 + (t.size - 1) =
          hashRaw key % t.size + t.size := by omega
      rw [harith, Nat.add_mod_right, Nat.mod_eq_of_lt hhlt]
    have hterm := @scan_no_fuelOut t.pairs t.size key (hashRaw key % t.size)
      (t.size - 1) t.size h0 hhlt (by omega) (by omega)
    rw [hidx] at hterm
    exact hterm
  · intro j vs hscan
    refine ⟨scan_sound _ _ _ _ hscan, ?_⟩
    rw [get_unfold t key h0, hscan]
  · intro hscan
    rw [get_unfold t key h0, hscan]

/-- Witness for `lookup_terminates_within_capacity` on a concrete store. -/
theorem lookup_terminates_witness :
    scanAux [some ("b", ["y"]), none, none] 3 "b" (hashRaw "b" % 3)
        (hashRaw "b" % 3) 3 ≠ ScanOut.fuelOut :=
  (lookup_terminates_within_capacity ⟨[some ("b", ["y"]), none, none], 3⟩
    "b" (by decide)).1

/-- C8: every key present in the store maps to a non-empty value sequence,
and the invariant is preserved by every store operation: the fresh table
satisfies it vacuously, `put` writes a one-element sequence, `appendAt`
extends an existing sequence, and any successful `get` therefore returns a
non-empty sequence. -/
theorem present_keys_nonempty_values :
    (∀ c, ∀ s ∈ (Hashtable.init c).pairs, slotOk s) ∧
    (∀ t t2 : Hashtable, ∀ k v : String, (∀ s ∈ t.pairs, slotOk s) →
      t.put k v = some t2 → ∀ s ∈ t2.pairs, slotOk s) ∧
    (∀ t t2 : Hashtable, ∀ k v : String, (∀ s ∈ t.pairs, slotOk s) →
      t.appendAt k v = some t2 → ∀ s ∈ t2.pairs, slotOk s) ∧
    (∀ t : Hashtable, ∀ k : String, ∀ vs : List String,
      (∀ s ∈ t.pairs, slotOk s) → t.get k = some vs → vs ≠ []) :=
  ⟨init_slotOk, fun _ _ _ _ hok h => slotOk_put hok h,
    fun _ _ _ _ hok h => slotOk_appendAt hok h,
    fun _ _ _ hok h => slotOk_get hok h⟩

/-- Witness for `present_keys_nonempty_values` on a concrete store. -/
theorem present_keys_nonempty_values_witness :
    (["x"] : List String) ≠ [] :=
  present_keys_nonempty_values.2.2.2 ⟨[some ("a", ["x"])], 1⟩ "a" ["x"]
    (by decide) (by decide)

/-- C9: on a store with at least one empty slot, `put` writes exactly one
slot — a previously empty one, leaving every other slot's pair unchanged
(the update is a point update `set j`), and in particular never overwrites
an occupied slot. -/
theorem insert_frame (t : Hashtable) (k v : String)
    (hempty : ∃ j, j < t.size ∧ t.pairs.getD j none = none) :
    ∃ t2 j, t.put k v = some t2 ∧ j < t.size ∧
      t.pairs.getD j none = none ∧
      t2.pairs = t.pairs.set j (some (k, [v])) := by
  have h0 : 0 < t.size := by
    obtain ⟨j, hj, _⟩ := hempty
    omega
  rw [put_unfold t k v h0]
  have hhlt : hashRaw k % t.size < t.size := Nat.mod_lt _ h0
  cases hcell : t.pairs.getD (hashRaw k % t.size) none with
  | none => exact ⟨_, hashRaw k % t.size, rfl, hhlt, hcell, rfl⟩
  | some s0 =>
    obtain ⟨m0, hm0, hm0e⟩ := hempty
    have hdlt : (hashRaw k % t.size + t.size - m0) % t.size < t.size :=
      Nat.mod_lt _ h0
    have hmd : (m0 + (hashRaw k % t.size + t.size - m0) % t.size) % t.size =
        hashRaw k % t.size := idx_dist hhlt hm0
    have hdpos : 0 < (hashRaw k % t.size + t.size - m0) % t.size := by
      rcases Nat.eq_zero_or_pos ((hashRaw k % t.size + t.size - m0) % t.size)
        with hz | hp
      · exfalso
        rw [hz, Nat.add_zero, Nat.mod_eq_of_lt hm0] at hmd
        rw [hmd] at hm0e
        rw [hm0e] at hcell
        cases hcell
      · exact hp
    have hprobe := probe_complete _ t.size m0 h0 hm0 hdpos (by omega) hm0e
    rw [hmd] at hprobe
    obtain ⟨j, hj⟩ := Option.isSome_iff_exists.mp hprobe
    rw [hj]
    obtain ⟨hjlt, hjempty, _⟩ := probe_sound _ _ _ h0 hhlt hj
    exact ⟨_, j, rfl, hjlt, hjempty, rfl⟩

/-- Witness for `insert_frame` on a concrete store. -/
theorem insert_frame_witness :
    ∃ t2 j, (Hashtable.init 2).put "a" "x" = some t2 ∧
      j < (Hashtable.init 2).size ∧
      (Hashtable.init 2).pairs.getD j none = none ∧
      t2.pairs = (Hashtable.init 2).pairs.set j (some ("a", ["x"])) :=
  insert_frame (Hashtable.init 2) "a" "x" ⟨0, by decide, by decide⟩

/-- C5: inserting any sequence of pairwise-distinct keys into a fresh store
of sufficient capacity succeeds, and afterwards every inserted key is found
by `get` with its value sequence (the one-element sequence `put` stored). -/
theorem insert_lookup_round_trip (kvs : List (String × String)) (c : Nat)
    (h0 : 0 < c) (hlen : kvs.length ≤ c) (hnd : (kvs.map Prod.fst).Nodup) :
    ∃ t, insertList (Hashtable.init c) kvs = some t ∧
      ∀ kv ∈ kvs, t.get kv.1 = some [kv.2] := by
  obtain ⟨tf, hins, hrelf⟩ := insertList_rel kvs (Hashtable.init c) []
    (rel_init c h0) hnd (fun kv _ => rfl)
    (by rw [Hashtable.init]; simpa using hlen)
  refine ⟨tf, hins, fun kv hkv => ?_⟩
  rw [rel_get hrelf kv.1, List.nil_append]
  exact modelFind_map_self kvs kv hkv hnd

/-- Witness for `insert_lookup_round_trip` with two colliding keys in a
capacity-2 store. -/
theorem insert_lookup_round_trip_witness :
    ∃ t, insertList (Hashtable.init 2) [("a", "1"), ("b", "2")] = some t ∧
      ∀ kv ∈ [("a", "1"), ("b", "2")], t.get kv.1 = some [kv.2] :=
  insert_lookup_round_trip [("a", "1"), ("b", "2")] 2 (by decide) (by decide)
    (by decide)

/-- C4: building from corpus `["a","b","a","b","a","c"]` with `n = 1` and
any capacity ≥ 3 maps `"a"` to `["b","b","c"]` in order, `"b"` to
`["a","a"]`, and the sentinel prefix `"@"` to `["a"]`. -/
theorem ingestion_abab (c : Nat) (hc : 3 ≤ c) :
    ∃ t, build_prefix_suffix_table ["a", "b", "a", "b", "a", "c"] 1 c =
        some t ∧
      t.get "a" = some ["b", "b", "c"] ∧ t.get "b" = some ["a", "a"] ∧
      t.get NONWORD = some ["a"] := by
  obtain ⟨t, hbuild, hrel, hget⟩ := build_model
    ["a", "b", "a", "b", "a", "c"] 1 c
    [("@", ["a"]), ("a", ["b", "b", "c"]), ("b", ["a", "a"])]
    (by omega) (by decide)
    (by simp only [List.length_cons, List.length_nil]; omega)
  exact ⟨t, hbuild, by rw [hget]; decide, by rw [hget]; decide,
    by rw [hget]; decide⟩

/-- Witness for `ingestion_abab` at capacity 3. -/
theorem ingestion_abab_witness :
    ∃ t, build_prefix_suffix_table ["a", "b", "a", "b", "a", "c"] 1 3 =
        some t ∧
      t.get "a" = some ["b", "b", "c"] ∧ t.get "b" = some ["a", "a"] ∧
      t.get NONWORD = some ["a"] :=
  ingestion_abab 3 (by decide)

/-- C2 counterexample: on corpus `["x","y","x","y"]`, `n = 1`, `count = 5`,
the generated sequence (here with capacity 5 and the random source that
always draws 0) is `["x","y","x","y","x"]` — five words, starting with the
sentinel's successor `"x"` — and not the claimed `["y","x","y","x"]`. -/
theorem generation_xy_not_as_claimed :
    (build_prefix_suffix_table ["x", "y", "x", "y"] 1 5).bind
        (fun t => generate_text t 1 5 (fun _ _ => 0)) =
      some ["x", "y", "x", "y", "x"] ∧
    (["x", "y", "x", "y", "x"] : List String) ≠ ["y", "x", "y", "x"] :=
  ⟨by decide, by decide⟩

/-- C2 amended: on corpus `["x","y","x","y"]`, `n = 1`, `count = 5`
(capacity ≥ 3), Generate is deterministic regardless of the random source —
the only multi-candidate prefix `"x"` has the two identical successors
`["y","y"]` — and returns exactly the 5-word sequence
`["x","y","x","y","x"]`, reaching the requested count. -/
theorem generation_xy_deterministic (pick : Nat → Nat → Nat)
    (hpick : ∀ s b, pick s b ≤ b) (c : Nat) (hc : 3 ≤ c) :
    ∃ t, build_prefix_suffix_table ["x", "y", "x", "y"] 1 c = some t ∧
      generate_text t 1 5 pick = some ["x", "y", "x", "y", "x"] := by
  obtain ⟨t, hbuild, hrel, hget⟩ := build_model ["x", "y", "x", "y"] 1 c
    [("@", ["x"]), ("x", ["y", "y"]), ("y", ["x"])]
    (by omega) (by decide)
    (by simp only [List.length_cons, List.length_nil]; omega)
  refine ⟨t, hbuild, ?_⟩
  have hat : t.get "@" = some ["x"] := by rw [hget]; decide
  have hx : t.get "x" = some ["y", "y"] := by rw [hget]; decide
  have hy : t.get "y" = some ["x"] := by rw [hget]; decide
  have hyy : ∀ s : Nat, (["y", "y"] : List String).get? (pick s 1) =
      some "y" := by
    intro s
    have hb := hpick s 1
    rcases Nat.le_one_iff_eq_zero_or_eq_one.mp hb with hz | hz <;>
      rw [hz] <;> rfl
  have e1 : genAux t pick ["@"] [] 0 5 = genAux t pick ["x"] ["x"] 1 4 :=
    genAux_step t pick "@" [] [] 0 4 ["x"] "x" hat rfl
  have e2 : genAux t pick ["x"] ["x"] 1 4 =
      genAux t pick ["y"] ["x", "y"] 2 3 :=
    genAux_step t pick "x" [] ["x"] 1 3 ["y", "y"] "y" hx
      (by rw [if_pos (by decide)]; exact hyy 1)
  have e3 : genAux t pick ["y"] ["x", "y"] 2 3 =
      genAux t pick ["x"] ["x", "y", "x"] 3 2 :=
    genAux_step t pick "y" [] ["x", "y"] 2 2 ["x"] "x" hy rfl
  have e4 : genAux t pick ["x"] ["x", "y", "x"] 3 2 =
      genAux t pick ["y"] ["x", "y", "x", "y"] 4 1 :=
    genAux_step t pick "x" [] ["x", "y", "x"] 3 1 ["y", "y"] "y" hx
      (by rw [if_pos (by decide)]; exact hyy 3)
  have e5 : genAux t pick ["y"] ["x", "y", "x", "y"] 4 1 =
      genAux t pick ["x"] ["x", "y", "x", "y", "x"] 5 0 :=
    genAux_step t pick "y" [] ["x", "y", "x", "y"] 4 0 ["x"] "x" hy rfl
  exact ((((e1.trans e2).trans e3).trans e4).trans e5).trans
    (genAux_zero t pick ["x"] ["x", "y", "x", "y", "x"] 5)

/-- Witness for `generation_xy_deterministic` with the always-0 random
source and capacity 3. -/
theorem generation_xy_deterministic_witness :
    ∃ t, build_prefix_suffix_table ["x", "y", "x", "y"] 1 3 = some t ∧
      generate_text t 1 5 (fun _ _ => 0) = some ["x", "y", "x", "y", "x"] :=
  generation_xy_deterministic (fun _ _ => 0) (fun _ b => Nat.zero_le b) 3
    (by decide)

/-- C10: generation over any successfully built model never fails an index
access: whenever the current prefix is present its candidate list is
non-empty (the store invariant), the random draw for a multi-candidate list
stays in `[0, length-1]` (randint's contract), and the single-candidate
branch reads index 0 of a list of length ≥ 1 — so `generate_text` always
returns a word list rather than the `none` that models an IndexError. -/
theorem generation_index_safe (contents : List String) (n c count : Nat)
    (t : Hashtable) (pick : Nat → Nat → Nat) (hn : 0 < n)
    (hbuild : build_prefix_suffix_table contents n c = some t)
    (hpick : ∀ s b, pick s b ≤ b) :
    ∃ l, generate_text t n count pick = some l := by
  have hok : ∀ s ∈ t.pairs, slotOk s :=
    buildAux_slotOk contents (List.replicate n NONWORD) (Hashtable.init c) t
      (init_slotOk c) hbuild
  have hne : (List.replicate n NONWORD) ≠ [] := by
    intro hrep
    have hlen := congrArg List.length hrep
    simp only [List.length_replicate, List.length_nil] at hlen
    omega
  exact genAux_safe hok pick hpick count (List.replicate n NONWORD) [] 0 hne

/-- Witness for `generation_index_safe` on a one-word corpus. -/
theorem generation_index_safe_witness :
    ∃ l, generate_text ⟨[some ("@", ["a"])], 1⟩ 1 3 (fun _ _ => 0) =
      some l :=
  generation_index_safe ["a"] 1 1 3 ⟨[some ("@", ["a"])], 1⟩ (fun _ _ => 0)
    (by decide) (by decide) (fun _ b => Nat.zero_le b)

example : hashRaw "@" = 64 := by decide
example : build_prefix_suffix_table ["a"] 2 0 = none := by decide
example : modelBuild ["a", "b", "a", "b", "a", "c"] 1 =
    some [("@", ["a"]), ("a", ["b", "b", "c"]), ("b", ["a", "a"])] := by decide
example : modelBuild ["x", "y", "x", "y"] 1 =
    some [("@", ["x"]), ("x", ["y", "y"]), ("y", ["x"])] := by decide
